import Mathlib

/-!
Verification of the GLAO closed-loop control program (`src/main.rs`).

The development shallowly embeds the program's own actors and helper
routines:

* `Reconstructor` with its constructor, drain-based `update`, and the
  `Write<M2modesRec>` output reshaping (`src/main.rs:23-79`);
* the pseudo-inverse poke-matrix file cache (`src/main.rs:264-346`);
* the condition-number diagnostic (`src/main.rs:313-325`);
* the glao actor graph and its single feedback cycle
  (`src/main.rs:367-456`).

Machine floats are modelled by exact numbers: by `ℤ` for the
linear-algebra state (the properties below are structural — data layout,
shapes, sums of products — and hold over any commutative ring), and by `ℚ`
where the source actually divides (the integrator gain `0.5`, the
condition-number ratio).  `Vec`/`DVector`/`DMatrix` are lists.
Operations that can panic at runtime (out-of-range `drain`, dimension
mismatch in `nalgebra` products, `chunks(0)`) are embedded as
`Option`-returning functions where `none` models the panic.
-/

/-- Dot product of two coefficient lists (`nalgebra` row · vector). -/
def dotProd : List ℤ → List ℤ → ℤ
  | a :: as, b :: bs => a * b + dotProd as bs
  | _, _ => 0

/-- Pointwise sum of two vectors (`nalgebra` `y += w`). -/
def addVec (a b : List ℤ) : List ℤ := List.zipWith (· + ·) a b

/-- Pointwise sum of two rational vectors (for the spec-modelled
integrator). -/
def addVecQ (a b : List ℚ) : List ℚ := List.zipWith (· + ·) a b

/-- Scalar multiple of a rational vector. -/
def scaleVecQ (g : ℚ) (v : List ℚ) : List ℚ := v.map (fun x => g * x)

/-- The zero vector over ℚ. -/
def zerosQ (n : Nat) : List ℚ := List.replicate n 0

/-- The zero vector of a given length (`DVector::zeros`). -/
def zeros (n : Nat) : List ℤ := List.replicate n 0

/-- A dense matrix in the manner of `nalgebra::DMatrix`: explicit row and
column counts together with the rows. -/
structure DMat where
  nrows : Nat
  ncols : Nat
  rows : List (List ℤ)
deriving DecidableEq

/-- Shape consistency, which `nalgebra` maintains by construction: the row
list really has `nrows` entries, each of length `ncols`. -/
def DMat.Wf (M : DMat) : Prop :=
  M.rows.length = M.nrows ∧ ∀ r ∈ M.rows, r.length = M.ncols

instance (M : DMat) : Decidable M.Wf := by
  unfold DMat.Wf; infer_instance

/-- Matrix · vector product (`mat * DVector::from_column_slice(..)`). -/
def mulVec (M : DMat) (v : List ℤ) : List ℤ := M.rows.map (fun r => dotProd r v)

/-- `Reconstructor` state (`src/main.rs:23-28`): the sub-matrices, the
pending input buffer `u`, the output vector `y`, and the output dimension. -/
structure Reconstructor where
  mat : List DMat
  u : List ℤ
  y : List ℤ
  n_y : Nat
deriving DecidableEq

/-- `Reconstructor::new` (`src/main.rs:30-39`): takes `n_y` from the first
matrix (indexing panics on an empty list, modelled by `none`) and asserts
that every matrix has that row count (`assert_eq!` panic modelled by
`none`). -/
def Reconstructor.new (mat : List DMat) : Option Reconstructor :=
  match mat with
  | [] => none
  | m0 :: _ =>
    if mat.all (fun m => m.nrows == m0.nrows) then
      some ⟨mat, [], zeros m0.nrows, m0.nrows⟩
    else none

/-- One pass of the fold in `Reconstructor::update` (`src/main.rs:42-55`)
over the state `(u, n_u, y)`: drain the first `ncols/2` entries of `u`,
decrement `n_u`, drain `ncols/2` further entries starting at the new `n_u`,
and accumulate the matrix product.  Each `Vec::drain` out of range, the
`usize` underflow of `n_u -= nv`, and a dimension mismatch in
`y += mat * v` are panics, modelled by `none`. -/
def updateStep (M : DMat) : List ℤ × Nat × List ℤ → Option (List ℤ × Nat × List ℤ)
  | (u, n_u, y) =>
    let nv := M.ncols / 2
    if nv ≤ u.length then
      let s_x := u.take nv
      let u1 := u.drop nv
      if nv ≤ n_u then
        let n_u1 := n_u - nv
        if n_u1 + nv ≤ u1.length then
          let s_xy := s_x ++ (u1.drop n_u1).take nv
          let u2 := u1.take n_u1 ++ u1.drop (n_u1 + nv)
          if s_xy.length = M.ncols ∧ M.nrows = y.length then
            some (u2, n_u1, addVec y (mulVec M s_xy))
          else none
        else none
      else none
    else none

/-- The fold of `updateStep` over the matrix list. -/
def updateFold : List DMat → List ℤ × Nat × List ℤ → Option (List ℤ × Nat × List ℤ)
  | [], st => some st
  | M :: rest, st => (updateStep M st).bind (updateFold rest)

/-- `Reconstructor::update` (`src/main.rs:41-56`): `n_u` starts at
`u.len() / 2`, the accumulator starts at `zeros n_y`, and afterwards the
drained buffer and the accumulated output replace `u` and `y`. -/
def Reconstructor.update (r : Reconstructor) : Option Reconstructor :=
  (updateFold r.mat (r.u, r.u.length / 2, zeros r.n_y)).map
    (fun st => { r with u := st.1, y := st.2.2 })

/-- `Read<SensorData> for Reconstructor` (`src/main.rs:57-61`): the payload
replaces the pending input buffer. -/
def Reconstructor.read (r : Reconstructor) (data : List ℤ) : Reconstructor :=
  { r with u := data }

/-- Sum of the half-column counts of a matrix list. -/
def sumNv (mats : List DMat) : Nat := (mats.map (fun M => M.ncols / 2)).sum

/-- Sum of the column counts of a matrix list. -/
def sumNcols (mats : List DMat) : Nat := (mats.map DMat.ncols).sum

/-- The spec's description of the reconstruction output: the input is laid
out as the first halves `xs` of all sub-units followed by the second halves
`ys`; each sub-matrix multiplies the concatenation of its sub-unit's two
half-slices, and the products are summed. -/
def specRecOutput (mats : List DMat) (xs ys : List ℤ) (n_y : Nat) : List ℤ :=
  match mats with
  | [] => zeros n_y
  | M :: rest =>
    let nv := M.ncols / 2
    addVec (mulVec M (xs.take nv ++ ys.take nv))
      (specRecOutput rest (xs.drop nv) (ys.drop nv) n_y)

/-- `slice::chunks(n)` with explicit fuel (the Rust call panics when `n = 0`;
that case is guarded at the call site below): consecutive chunks of `n`
elements, the last chunk possibly shorter. -/
def chunksRec : Nat → Nat → List ℤ → List (List ℤ)
  | _, _, [] => []
  | 0, _, _ :: _ => []
  | fuel + 1, n, x :: l => (x :: l).take n :: chunksRec fuel n ((x :: l).drop n)

/-- `y.as_slice().chunks(n)` with fuel instantiated. -/
def chunks (n : Nat) (l : List ℤ) : List (List ℤ) := chunksRec l.length n l

/-- `Write<M2modesRec> for Reconstructor` (`src/main.rs:65-79`): chunk `y`
into pieces of `n_y / 7` coefficients, prefix each chunk with a single `0`,
and flatten.  `chunks(0)` panics in Rust, modelled by `none`. -/
def writeM2modesRec (r : Reconstructor) : Option (List ℤ) :=
  if r.n_y / 7 = 0 then none
  else some (((chunks (r.n_y / 7) r.y).map (fun c => 0 :: c)).flatten)

/-- The spec's description of the reshaped command vector: split `y` into 7
equal chunks of `k` coefficients and prefix each chunk with a single zero. -/
def specReshape (k : Nat) (y : List ℤ) : List ℤ :=
  ((List.range 7).map (fun i => 0 :: ((y.drop (i * k)).take k))).flatten

/-- Modelled from the spec: the `Integrator` client is implemented in the
external `dos_actors` crate; only its configuration
(`Integrator::new(n_mode).gain(0.5)` and the `bootstrap()` on its output,
`src/main.rs:427-440`) is code of this repository.  Spec §4.4: the state is
the accumulated command vector `y` and the scalar gain. -/
structure Integrator where
  y : List ℚ
  gain : ℚ
deriving DecidableEq

/-- Modelled from the spec: the integrator starts from the zero command
vector of the configured size, with the configured gain. -/
def Integrator.new (n_mode : Nat) (g : ℚ) : Integrator := ⟨zerosQ n_mode, g⟩

/-- Modelled from the spec: on each update, given an increment vector `Δ`
from the Reconstructor, `y ← y + g·Δ`. -/
def Integrator.update (i : Integrator) (delta : List ℚ) : Integrator :=
  { i with y := addVecQ i.y (scaleVecQ i.gain delta) }

/-- Modelled from the spec: the integrator emits `y` on write-due ticks;
thanks to `bootstrap()` the first write happens before any increment has
been read, so it emits the initial state. -/
def Integrator.write (i : Integrator) : List ℚ := i.y

/-- `m2_n_mode` (`src/main.rs:197`). -/
def m2_n_mode : Nat := 100

/-- `n_mode` (`src/main.rs:198`), the integrator's vector size. -/
def n_mode : Nat := m2_n_mode * 7

/-- `n_side_lenslet` (`src/main.rs:244`). -/
def n_side_lenslet : Nat := 48

/-- `n_sensor` (`src/main.rs:136`). -/
def n_sensor : Nat := 3

/-- `n_source` (`src/main.rs:253`). -/
def n_source : Nat := n_sensor

/-- The `n_mode` shadowed inside the calibration branch
(`src/main.rs:308`): the column count of the poke matrix and hence the row
count of each pseudo-inverse sub-matrix. -/
def n_mode_calib : Nat := (m2_n_mode - 1) * 7

/-- The integrator configured by the program (`src/main.rs:427`):
`Integrator::new(n_mode).gain(0.5)`. -/
def glaoIntegrator : Integrator := Integrator.new n_mode (1 / 2)

/-- A matrix as serialized by `bincode` (`src/main.rs:340-343`): its shape
together with its column-major data slice. -/
abbrev SerMat := (Nat × Nat) × List ℤ

/-- The durable store holding the cached calibration artifacts, as a map
from file names to their contents. -/
def FS : Type := String → Option (List SerMat)

/-- The cache file name (`src/main.rs:265-268`):
`pinv_poke_{m2_n_mode}mode_{n_side_lenslet}lensletX{n_source}.bin`. -/
def cacheKey (m l s : Nat) : String :=
  "pinv_poke_" ++ toString m ++ "mode_" ++ toString l ++ "lensletX" ++
    toString s ++ ".bin"

/-- The cache file name with this program's parameters. -/
def glaoCacheKey : String := cacheKey m2_n_mode n_side_lenslet n_source

/-- Entry `(i, j)` of a matrix. -/
def DMat.entry (M : DMat) (i j : Nat) : ℤ := (M.rows.getD i []).getD j 0

/-- `DMatrix::as_slice`: the column-major data of the matrix; entry `k`
holds row `k % nrows`, column `k / nrows`. -/
def DMat.as_slice (M : DMat) : List ℤ :=
  (List.range (M.nrows * M.ncols)).map (fun k => M.entry (k % M.nrows) (k / M.nrows))

/-- `DMatrix::from_column_slice(n, m, x)` (`src/main.rs:275`). -/
def from_column_slice (n m : Nat) (x : List ℤ) : DMat :=
  ⟨n, m, (List.range n).map (fun i => (List.range m).map (fun j => x.getD (j * n + i) 0))⟩

/-- Serialization of the pseudo-inverse list (`src/main.rs:340-343`): each
matrix becomes its shape paired with its column-major slice. -/
def serializePinv (mats : List DMat) : List SerMat :=
  mats.map (fun M => ((M.nrows, M.ncols), M.as_slice))

/-- Deserialization of the cached artifact (`src/main.rs:272-276`). -/
def deserializePinv (data : List SerMat) : List DMat :=
  data.map (fun d => from_column_slice d.1.1 d.1.2 d.2)

/-- The read-through cache of `src/main.rs:270-346`: if the cache file
exists its contents are deserialized and the store is untouched; otherwise
the freshly computed matrices (the SVD/pseudo-inverse computation itself
happens in the `crseo`/`nalgebra` collaborators and is abstracted as the
`computed` argument) are returned and serialized into that same file. -/
def pinv_poke_mat (fs : FS) (computed : List DMat) : List DMat × FS :=
  match fs glaoCacheKey with
  | some data => (deserializePinv data, fs)
  | none =>
    (computed,
      fun k => if k = glaoCacheKey then some (serializePinv computed) else fs k)

/-- The reconstructor actor's client (`src/main.rs:418-419`):
`Reconstructor::new(pinv_poke_mat)`. -/
def glaoReconstructor (fs : FS) (computed : List DMat) : Option Reconstructor :=
  Reconstructor.new (pinv_poke_mat fs computed).1

/-- The conditioning diagnostic (`src/main.rs:323-324`): the first entry of
the singular-value list divided by its last entry. -/
def condn (svals : List ℚ) : ℚ := svals.headD 0 / svals.getLastD 0

/-- The actors of the `glao` model (`src/main.rs:442-452`). -/
inductive GActor
  | timer
  | onAxis
  | aoActor
  | reconActor
  | integActor
  | logsActor
  | wfLogsActor
  | gmtActor
  | scienceActor
deriving DecidableEq, Fintype

/-- The channels of the `glao` model (`src/main.rs:367-440`), as the edge
relation between producing and consuming actors. -/
def glaoEdge : GActor → GActor → Bool
  | .timer, .onAxis => true          -- Tick (multiplexed)
  | .timer, .aoActor => true         -- Tick (multiplexed)
  | .onAxis, .logsActor => true      -- WfeRms, SegmentWfeRms, SegmentPiston
  | .onAxis, .wfLogsActor => true    -- Wavefront
  | .scienceActor, .logsActor => true     -- residual WFE terms
  | .scienceActor, .wfLogsActor => true   -- ResidualWavefront
  | .gmtActor, .wfLogsActor => true       -- ReconWavefront
  | .aoActor, .reconActor => true         -- SensorData
  | .reconActor, .integActor => true      -- M2modesRec
  | .integActor, .aoActor => true         -- M2modes (bootstrapped, multiplexed)
  | .integActor, .gmtActor => true        -- M2modes (bootstrapped, multiplexed)
  | .integActor, .scienceActor => true    -- M2modes (bootstrapped, multiplexed)
  | _, _ => false

/-- Which actors have a bootstrapped output in the `glao` model: only the
integrator's `M2modes` output is built with `.bootstrap()`
(`src/main.rs:432-440`). -/
def glaoBootstrap : GActor → Bool
  | .integActor => true
  | _ => false

/-- The non-bootstrapped part of the edge relation. -/
def glaoEdgeNB (a b : GActor) : Bool := glaoEdge a b && !glaoBootstrap a

/-- A topological rank witnessing that the non-bootstrapped subgraph is
acyclic. -/
def glaoRank : GActor → Nat
  | .timer => 0
  | .onAxis => 1
  | .aoActor => 1
  | .reconActor => 2
  | .integActor => 3
  | .gmtActor => 4
  | .scienceActor => 4
  | .logsActor => 5
  | .wfLogsActor => 5

/-- A directed path along an edge relation: `chainOf e a l` holds when the
successive elements of `a :: l` are joined by edges. -/
def chainOf (e : GActor → GActor → Bool) : GActor → List GActor → Bool
  | _, [] => true
  | a, b :: l => e a b && chainOf e b l

/-- Modelled from the spec: `Model::check` is implemented in the external
`dos_actors` crate; spec §4.5 — `check()` verifies, before any tick runs,
that every feedback cycle contains at least one bootstrapped actor. -/
def checkBootstrapOK (e : GActor → GActor → Bool) (boot : GActor → Bool) : Prop :=
  ∀ a l, chainOf e a (l ++ [a]) = true → (a :: l).any boot = true

/-- The reconstructor state invariant maintained by `Reconstructor::new`:
the output dimension is the first matrix's row count. -/
def Reconstructor.Inv (r : Reconstructor) : Prop :=
  r.mat.head?.map DMat.nrows = some r.n_y

instance (r : Reconstructor) : Decidable r.Inv := by
  unfold Reconstructor.Inv; infer_instance

/-- A concrete 1×2 operator used as a test input. -/
def mat12 : DMat := ⟨1, 2, [[2, 3]]⟩

/-- The reconstructor freshly constructed from `mat12`: its pending input
buffer is empty. -/
def freshRec : Reconstructor := ⟨[mat12], [], [0], 1⟩

/-- A concrete two-sub-unit reconstructor used as a test input: a 1×2 and a
1×4 operator with the interleaved input `[1, 2, 3, 4, 5, 6]`. -/
def recEx : Reconstructor := ⟨[mat12, ⟨1, 4, [[1, 10, 100, 1000]]⟩], [1, 2, 3, 4, 5, 6], [0], 1⟩

lemma addVec_length (a b : List ℤ) : (addVec a b).length = min a.length b.length := by
  simp [addVec]

lemma mulVec_length (M : DMat) (v : List ℤ) : (mulVec M v).length = M.rows.length := by
  simp [mulVec]

lemma addVec_assoc (a b c : List ℤ) : addVec (addVec a b) c = addVec a (addVec b c) := by
  induction a generalizing b c with
  | nil => simp [addVec]
  | cons x xs ih =>
    cases b with
    | nil => simp [addVec]
    | cons y ys =>
      cases c with
      | nil => simp [addVec]
      | cons z zs =>
        have h := ih ys zs
        simp only [addVec] at h ⊢
        simp [List.zipWith_cons_cons, add_assoc, h]

lemma addVec_zeros (a : List ℤ) (n : Nat) (h : a.length ≤ n) :
    addVec a (zeros n) = a := by
  induction a generalizing n with
  | nil => simp [addVec]
  | cons x xs ih =>
    cases n with
    | zero => simp at h
    | succ m =>
      simp only [zeros, List.replicate, addVec, List.zipWith_cons_cons, add_zero]
      simp only [List.length_cons, Nat.succ_le_succ_iff] at h
      exact congrArg _ (ih m h)

lemma specRecOutput_length (mats : List DMat) (xs ys : List ℤ) (n_y : Nat)
    (hwf : ∀ M ∈ mats, M.Wf) (hrows : ∀ M ∈ mats, M.nrows = n_y) :
    (specRecOutput mats xs ys n_y).length = n_y := by
  induction mats generalizing xs ys with
  | nil => simp [specRecOutput, zeros]
  | cons M rest ih =>
    have hMwf := hwf M (by simp)
    have hMr := hrows M (by simp)
    simp only [specRecOutput, addVec_length, mulVec_length]
    rw [hMwf.1, hMr, ih _ _ (fun N hN => hwf N (by simp [hN]))
      (fun N hN => hrows N (by simp [hN]))]
    simp

lemma sumNcols_eq_two_sumNv (mats : List DMat) (heven : ∀ M ∈ mats, M.ncols % 2 = 0) :
    sumNcols mats = 2 * sumNv mats := by
  induction mats with
  | nil => simp [sumNcols, sumNv]
  | cons M rest ih =>
    have hM : M.ncols % 2 = 0 := heven M (by simp)
    have h2 : 2 * (M.ncols / 2) = M.ncols := Nat.mul_div_cancel' (Nat.dvd_of_mod_eq_zero hM)
    simp only [sumNcols, sumNv, List.map_cons, List.sum_cons] at *
    rw [ih (fun N hN => heven N (by simp [hN]))]
    omega

/-- Core characterization of the `Reconstructor::update` fold: starting from
the interleaved buffer `xs ++ ys` with `n_u = ys.length`, the fold drains the
buffer completely and accumulates exactly the spec's per-sub-matrix sum. -/
lemma updateFold_core (mats : List DMat) (xs ys acc : List ℤ) (n_y : Nat)
    (hwf : ∀ M ∈ mats, M.Wf) (heven : ∀ M ∈ mats, M.ncols % 2 = 0)
    (hrows : ∀ M ∈ mats, M.nrows = n_y)
    (hxs : xs.length = sumNv mats) (hys : ys.length = sumNv mats)
    (hacc : acc.length = n_y) :
    updateFold mats (xs ++ ys, ys.length, acc) =
      some ([], 0, addVec acc (specRecOutput mats xs ys n_y)) := by
  induction mats generalizing xs ys acc with
  | nil =>
    simp [sumNv] at hxs hys
    subst hxs; subst hys
    simp [updateFold, specRecOutput, addVec_zeros acc n_y (le_of_eq hacc)]
  | cons M rest ih =>
    have hMwf := hwf M (by simp)
    have hMeven := heven M (by simp)
    have hMr := hrows M (by simp)
    set nv := M.ncols / 2 with hnv
    have hsum : sumNv (M :: rest) = nv + sumNv rest := by simp [sumNv]
    have hxs' : nv ≤ xs.length := by omega
    have h1 : nv ≤ (xs ++ ys).length := by simp; omega
    have htake : (xs ++ ys).take nv = xs.take nv :=
      List.take_append_of_le_length hxs'
    have hdrop : (xs ++ ys).drop nv = xs.drop nv ++ ys :=
      List.drop_append_of_le_length hxs'
    have h2 : nv ≤ ys.length := by omega
    have hlen_xs' : (xs.drop nv).length = ys.length - nv := by simp; omega
    have h3 : ys.length - nv + nv ≤ (xs.drop nv ++ ys).length := by simp; omega
    -- the second drain slices exactly the head of `ys`
    have hdrop2 : (xs.drop nv ++ ys).drop (ys.length - nv) = ys := by
      rw [← hlen_xs']; exact List.drop_left _ _
    have htake2 : (xs.drop nv ++ ys).take (ys.length - nv) = xs.drop nv := by
      rw [← hlen_xs']; exact List.take_left _ _
    have hdrop3 : (xs.drop nv ++ ys).drop (ys.length - nv + nv) = ys.drop nv := by
      rw [← hlen_xs']; exact List.drop_append nv
    have hsxy_len : (xs.take nv ++ ys.take nv).length = M.ncols := by
      simp; omega
    have hrows_len : M.nrows = acc.length := by omega
    have hstep : updateStep M (xs ++ ys, ys.length, acc) =
        some (xs.drop nv ++ ys.drop nv, ys.length - nv,
          addVec acc (mulVec M (xs.take nv ++ ys.take nv))) := by
      simp only [updateStep, ← hnv, h1, if_true, h2, if_true, h3, if_true,
        htake, hdrop, hdrop2, htake2, hdrop3, hsxy_len, hrows_len, and_self,
        if_true]
    have hacc' : (addVec acc (mulVec M (xs.take nv ++ ys.take nv))).length = n_y := by
      rw [addVec_length, mulVec_length, hMwf.1, hMr, hacc]; simp
    have hys2 : (ys.drop nv).length = sumNv rest := by simp; omega
    have hxs2 : (xs.drop nv).length = sumNv rest := by simp; omega
    have ihr := ih (xs.drop nv) (ys.drop nv)
      (addVec acc (mulVec M (xs.take nv ++ ys.take nv)))
      (fun N hN => hwf N (by simp [hN])) (fun N hN => heven N (by simp [hN]))
      (fun N hN => hrows N (by simp [hN])) hxs2 hys2 hacc'
    simp only [updateFold, hstep, Option.some_bind]
    rw [show ys.length - nv = (List.drop nv ys).length from by simp, ihr]
    simp only [specRecOutput]
    rw [← hnv, addVec_assoc]

lemma zeros_addVec (n : Nat) (a : List ℤ) (h : a.length ≤ n) :
    addVec (zeros n) a = a := by
  induction a generalizing n with
  | nil => simp [addVec]
  | cons x xs ih =>
    cases n with
    | zero => simp at h
    | succ m =>
      simp only [zeros, List.replicate, addVec, List.zipWith_cons_cons, zero_add]
      simp only [List.length_cons, Nat.succ_le_succ_iff] at h
      exact congrArg _ (ih m h)

/-- Full characterization of `Reconstructor::update` on a well-formed state:
the pending buffer is consumed completely and the output is the spec's
per-sub-matrix sum over the interleaved halves. -/
lemma update_char (r : Reconstructor)
    (hwf : ∀ M ∈ r.mat, M.Wf) (heven : ∀ M ∈ r.mat, M.ncols % 2 = 0)
    (hrows : ∀ M ∈ r.mat, M.nrows = r.n_y)
    (hu : r.u.length = sumNcols r.mat) :
    r.update = some { r with
                      u := [],
                      y := specRecOutput r.mat (r.u.take (r.u.length / 2))
                        (r.u.drop (r.u.length / 2)) r.n_y } := by
  have h2 : r.u.length = 2 * sumNv r.mat := by
    rw [hu, sumNcols_eq_two_sumNv r.mat heven]
  have hH : r.u.length / 2 = sumNv r.mat := by omega
  have hxs : (r.u.take (r.u.length / 2)).length = sumNv r.mat := by
    simp only [List.length_take]; omega
  have hys : (r.u.drop (r.u.length / 2)).length = sumNv r.mat := by
    simp only [List.length_drop]; omega
  have hcore := updateFold_core r.mat (r.u.take (r.u.length / 2))
    (r.u.drop (r.u.length / 2)) (zeros r.n_y) r.n_y hwf heven hrows hxs hys
    (by simp [zeros])
  have harg : (r.u, r.u.length / 2, zeros r.n_y) =
      (r.u.take (r.u.length / 2) ++ r.u.drop (r.u.length / 2),
        (r.u.drop (r.u.length / 2)).length, zeros r.n_y) := by
    rw [List.take_append_drop, hys, hH]
  unfold Reconstructor.update
  rw [harg, hcore]
  simp only [Option.map_some']
  rw [zeros_addVec _ _ (le_of_eq (specRecOutput_length r.mat _ _ r.n_y hwf hrows))]

/-- C1: with even sub-matrix column counts and a pending input of the total
column count, `update` sets `y` to the sum over sub-matrices of the
sub-matrix times the concatenation of the sub-unit's first-half and
second-half slices, where `u` is the first halves of all sub-units followed
by their second halves; a single configured matrix degenerates to the dense
product `M·u`. -/
theorem reconstructor_update_layout (r : Reconstructor)
    (hwf : ∀ M ∈ r.mat, M.Wf) (heven : ∀ M ∈ r.mat, M.ncols % 2 = 0)
    (hrows : ∀ M ∈ r.mat, M.nrows = r.n_y)
    (hu : r.u.length = sumNcols r.mat) :
    r.update = some { r with
                      u := [],
                      y := specRecOutput r.mat (r.u.take (r.u.length / 2))
                        (r.u.drop (r.u.length / 2)) r.n_y }
    ∧ ∀ M, r.mat = [M] →
      r.update = some { r with u := [], y := mulVec M r.u } := by
  refine ⟨update_char r hwf heven hrows hu, ?_⟩
  intro M hM
  rw [update_char r hwf heven hrows hu]
  have hMeven : M.ncols % 2 = 0 := heven M (by rw [hM]; simp)
  have hMwf : M.Wf := hwf M (by rw [hM]; simp)
  have hMr : M.nrows = r.n_y := hrows M (by rw [hM]; simp)
  have hlen : r.u.length = M.ncols := by
    rw [hu, hM]; simp [sumNcols]
  have hH : r.u.length / 2 = M.ncols / 2 := by rw [hlen]
  have hxs : (r.u.take (r.u.length / 2)).length ≤ M.ncols / 2 := by
    simp only [List.length_take]; omega
  have hys : (r.u.drop (r.u.length / 2)).length ≤ M.ncols / 2 := by
    simp only [List.length_drop]; omega
  have hspec : specRecOutput r.mat (r.u.take (r.u.length / 2))
      (r.u.drop (r.u.length / 2)) r.n_y = mulVec M r.u := by
    rw [hM]
    simp only [specRecOutput]
    rw [List.take_of_length_le hxs, List.take_of_length_le hys,
      List.take_append_drop]
    rw [addVec_zeros]
    rw [mulVec_length, hMwf.1, hMr]
  rw [hspec]

/-- C1 witness: a two-sub-unit reconstructor and a single-matrix
reconstructor evaluated concretely. -/
theorem reconstructor_update_layout_witness :
    recEx.update = some { recEx with
                          u := [],
                          y := specRecOutput recEx.mat
                            (recEx.u.take (recEx.u.length / 2))
                            (recEx.u.drop (recEx.u.length / 2)) recEx.n_y } ∧
    (Reconstructor.mk [mat12] [1, 2] [0] 1).update =
      some { Reconstructor.mk [mat12] [1, 2] [0] 1 with
             u := [],
             y := mulVec mat12 [1, 2] } := by
  constructor
  · exact (reconstructor_update_layout recEx (by decide) (by decide)
      (by decide) (by decide)).1
  · exact (reconstructor_update_layout ⟨[mat12], [1, 2], [0], 1⟩ (by decide)
      (by decide) (by decide) (by decide)).2 mat12 rfl

/-- C4: constructing a `Reconstructor` fails at construction time whenever
some matrix's row count differs from the first matrix's row count, and
succeeds with output dimension equal to that common row count when they all
agree; the `assert_eq!` panic happens inside `new`, before the actor is
wired into the graph, so the mismatch is never a recoverable runtime
error. -/
theorem reconstructor_new_shape_check (m0 : DMat) (rest : List DMat) :
    ((∃ M ∈ m0 :: rest, M.nrows ≠ m0.nrows) →
      Reconstructor.new (m0 :: rest) = none) ∧
    ((∀ M ∈ m0 :: rest, M.nrows = m0.nrows) →
      Reconstructor.new (m0 :: rest) =
        some ⟨m0 :: rest, [], zeros m0.nrows, m0.nrows⟩) := by
  constructor
  · rintro ⟨M, hM, hne⟩
    simp only [Reconstructor.new]
    rw [if_neg]
    simp only [List.all_eq_true, beq_iff_eq, not_forall]
    exact ⟨M, hM, hne⟩
  · intro hall
    simp only [Reconstructor.new]
    rw [if_pos]
    simp only [List.all_eq_true, beq_iff_eq]
    exact hall

/-- C4 witness: a mismatched pair fails, a matching singleton succeeds. -/
theorem reconstructor_new_shape_check_witness :
    Reconstructor.new [mat12, ⟨2, 2, [[1, 0], [0, 1]]⟩] = none ∧
    Reconstructor.new [mat12] = some ⟨[mat12], [], zeros 1, 1⟩ := by
  constructor
  · exact (reconstructor_new_shape_check mat12 [⟨2, 2, [[1, 0], [0, 1]]⟩]).1
      (by decide)
  · exact (reconstructor_new_shape_check mat12 []).2 (by decide)

/-- C8: `Reconstructor::update` is deterministic — two reconstructor states
(with the output dimension the constructor derives from the matrices) that
have equal matrices, equal pending input, and equal output vector produce
equal results — and it reads and writes only the actor's own fields: the
operator list and the output dimension are left unchanged. -/
theorem reconstructor_update_deterministic :
    (∀ r1 r2 : Reconstructor, r1.Inv → r2.Inv → r1.mat = r2.mat →
      r1.u = r2.u → r1.y = r2.y → r1.update = r2.update) ∧
    (∀ r r2 : Reconstructor, r.update = some r2 →
      r2.mat = r.mat ∧ r2.n_y = r.n_y) := by
  constructor
  · rintro ⟨m1, u1, y1, n1⟩ ⟨m2, u2, y2, n2⟩ h1 h2 hm hu hy
    dsimp only at hm hu hy
    subst hm; subst hu; subst hy
    unfold Reconstructor.Inv at h1 h2
    dsimp only at h1 h2
    rw [h1] at h2
    cases Option.some.inj h2
    rfl
  · intro r r2 h
    unfold Reconstructor.update at h
    cases hf : updateFold r.mat (r.u, r.u.length / 2, zeros r.n_y) with
    | none => rw [hf] at h; simp at h
    | some st =>
      rw [hf] at h
      simp only [Option.map_some', Option.some.injEq] at h
      cases h
      exact ⟨rfl, rfl⟩

/-- C8 witness: determinism and field preservation evaluated on the concrete
two-sub-unit reconstructor. -/
theorem reconstructor_update_deterministic_witness :
    recEx.update = recEx.update ∧
    (Reconstructor.mk recEx.mat [] [6546] 1).mat = recEx.mat ∧
    (Reconstructor.mk recEx.mat [] [6546] 1).n_y = recEx.n_y := by
  refine ⟨?_, ?_⟩
  · exact (reconstructor_update_deterministic).1 recEx recEx (by decide)
      (by decide) rfl rfl rfl
  · exact (reconstructor_update_deterministic).2 recEx
      ⟨recEx.mat, [], [6546], 1⟩ (by decide)

/-- C9: under the precondition that the pending input has the total column
count of the sub-matrices and every sub-matrix has an even column count,
`update` performs every `drain` in range (it returns a state rather than
panicking) and leaves the pending buffer empty; without the precondition —
here the empty buffer a freshly constructed `Reconstructor` holds —
`update` panics at runtime (`none`) rather than returning an error. -/
theorem reconstructor_update_drain_safety :
    (∀ r : Reconstructor, (∀ M ∈ r.mat, M.Wf) →
      (∀ M ∈ r.mat, M.ncols % 2 = 0) → (∀ M ∈ r.mat, M.nrows = r.n_y) →
      r.u.length = sumNcols r.mat →
      ∃ r2, r.update = some r2 ∧ r2.u = []) ∧
    Reconstructor.new [mat12] = some freshRec ∧
    freshRec.update = none := by
  refine ⟨?_, by decide, by decide⟩
  intro r hwf heven hrows hu
  exact ⟨_, update_char r hwf heven hrows hu, rfl⟩

/-- C9 witness: the safety statement applied to the concrete two-sub-unit
reconstructor. -/
theorem reconstructor_update_drain_safety_witness :
    ∃ r2, recEx.update = some r2 ∧ r2.u = [] :=
  (reconstructor_update_drain_safety).1 recEx (by decide) (by decide)
    (by decide) (by decide)


lemma chunksRec_fuel : ∀ (fuel1 fuel2 n : Nat), 0 < n → ∀ l : List ℤ,
    l.length ≤ fuel1 → l.length ≤ fuel2 →
    chunksRec fuel1 n l = chunksRec fuel2 n l := by
  intro fuel1
  induction fuel1 with
  | zero =>
    intro fuel2 n hn l h1 h2
    have hl : l = [] := List.eq_nil_of_length_eq_zero (Nat.le_zero.mp h1)
    subst hl
    cases fuel2 <;> simp [chunksRec]
  | succ f ih =>
    intro fuel2 n hn l h1 h2
    cases l with
    | nil => cases fuel2 <;> simp [chunksRec]
    | cons x t =>
      cases fuel2 with
      | zero => simp at h2
      | succ f2 =>
        simp only [chunksRec]
        congr 1
        apply ih f2 n hn
        · simp only [List.length_drop, List.length_cons]
          simp only [List.length_cons] at h1
          omega
        · simp only [List.length_drop, List.length_cons]
          simp only [List.length_cons] at h2
          omega

lemma chunks_cons (n : Nat) (hn : 0 < n) (c l : List ℤ) (hc : c.length = n) :
    chunks n (c ++ l) = c :: chunks n l := by
  cases c with
  | nil => simp at hc; omega
  | cons a t =>
    show chunksRec ((a :: t ++ l).length) n (a :: (t ++ l)) = _
    have hlen : (a :: t ++ l).length = (t ++ l).length + 1 := by simp
    rw [hlen]
    simp only [chunksRec]
    have htake : (a :: (t ++ l)).take n = a :: t := by
      rw [show a :: (t ++ l) = (a :: t) ++ l from rfl, ← hc]
      exact List.take_left _ _
    have hdrop : (a :: (t ++ l)).drop n = l := by
      rw [show a :: (t ++ l) = (a :: t) ++ l from rfl, ← hc]
      exact List.drop_left _ _
    rw [htake, hdrop]
    congr 1
    unfold chunks
    apply chunksRec_fuel _ _ n hn
    · simp
    · exact le_refl _

lemma chunks_map_spec (k : Nat) (hk : 0 < k) :
    ∀ (m : Nat) (y : List ℤ), y.length = m * k →
    (chunks k y).map (fun c => (0 : ℤ) :: c) =
      (List.range m).map (fun i => 0 :: ((y.drop (i * k)).take k)) := by
  intro m
  induction m with
  | zero =>
    intro y hy
    have hynil : y = [] := List.eq_nil_of_length_eq_zero (by omega)
    subst hynil
    simp [chunks, chunksRec]
  | succ m ih =>
    intro y hy
    have hsplit : y = y.take k ++ y.drop k := (List.take_append_drop k y).symm
    have htk : (y.take k).length = k := by
      simp only [List.length_take]
      have : k ≤ y.length := by
        rw [hy, Nat.succ_mul]; omega
      omega
    have hdk : (y.drop k).length = m * k := by
      simp only [List.length_drop]
      rw [hy, Nat.succ_mul]; omega
    conv_lhs => rw [hsplit]
    rw [chunks_cons k hk _ _ htk, List.map_cons, ih (y.drop k) hdk,
      List.range_succ_eq_map, List.map_cons, List.map_map]
    congr 1
    · simp
    · apply List.map_congr_left
      intro i hi
      simp only [Function.comp_apply]
      rw [List.drop_drop]
      have harith : k + i * k = Nat.succ i * k := by
        rw [Nat.succ_mul]; omega
      rw [harith]

lemma write_eq_specReshape (r : Reconstructor) (k : Nat) (hk : 0 < k)
    (hny : r.n_y = 7 * k) (hy : r.y.length = r.n_y) :
    writeM2modesRec r = some (specReshape k r.y) := by
  have h7 : r.n_y / 7 = k := by omega
  unfold writeM2modesRec
  rw [h7, if_neg (by omega)]
  congr 1
  unfold specReshape
  rw [chunks_map_spec k hk 7 r.y (by omega)]

lemma specReshape_length (k : Nat) (y : List ℤ) (hy : y.length = 7 * k) :
    (specReshape k y).length = 7 * k + 7 := by
  simp [specReshape, List.length_flatten, List.range_succ, hy]
  omega

lemma specReshape_zeros (k : Nat) : specReshape k (zeros (7 * k)) = zeros (7 * k + 7) := by
  have hlen := specReshape_length k (zeros (7 * k)) (by simp [zeros])
  rw [show zeros (7 * k + 7) = List.replicate (7 * k + 7) (0 : ℤ) from rfl,
    List.eq_replicate_iff]
  refine ⟨hlen, ?_⟩
  intro b hb
  simp only [specReshape, zeros, List.mem_flatten, List.mem_map,
    List.mem_range] at hb
  obtain ⟨c, ⟨i, hi7, hc⟩, hbc⟩ := hb
  subst hc
  rcases List.mem_cons.mp hbc with h | h
  · exact h
  · have h2 := h
    simp [List.drop_replicate, List.take_replicate, List.mem_replicate] at h2
    exact h2.2

/-- C2: for an output dimension that is a positive multiple of 7, `write`
returns `Some` of the vector obtained by splitting `y` into 7 equal chunks
of `n_y / 7` coefficients and prefixing each chunk with a single zero,
giving total length `n_y + 7`; with this program's operators
(`n_y = (m2_n_mode - 1) * 7 = 693`) the emitted command vector has length
700, equal to the integrator's configured size `n_mode = m2_n_mode * 7`. -/
theorem reconstructor_write_reshape (r : Reconstructor) (k : Nat) (hk : 0 < k)
    (hny : r.n_y = 7 * k) (hy : r.y.length = r.n_y) :
    (writeM2modesRec r = some (specReshape k r.y) ∧
      (specReshape k r.y).length = r.n_y + 7) ∧
    (n_mode_calib = 693 ∧ n_mode_calib + 7 = n_mode ∧ n_mode = 700 ∧
      (r.n_y = n_mode_calib → (specReshape k r.y).length = n_mode)) := by
  have h1 := write_eq_specReshape r k hk hny hy
  have h2 := specReshape_length k r.y (by omega)
  have hc : n_mode_calib = 693 := by decide
  have hm : n_mode = 700 := by decide
  refine ⟨⟨h1, by omega⟩, hc, by omega, hm, ?_⟩
  intro h3
  omega

/-- C2 witness: a 7-dimensional output split into 7 chunks of one
coefficient each. -/
theorem reconstructor_write_reshape_witness :
    0 < 1 ∧
    writeM2modesRec ⟨[], [], [1, 2, 3, 4, 5, 6, 7], 7⟩ =
      some (specReshape 1 [1, 2, 3, 4, 5, 6, 7]) := by
  refine ⟨by decide, ?_⟩
  exact ((reconstructor_write_reshape ⟨[], [], [1, 2, 3, 4, 5, 6, 7], 7⟩ 1
    (by decide) (by decide) (by decide)).1).1

/-- C10: the Reconstructor's `write` returns `Some` whenever the chunk size
`n_y / 7` is positive (in the embedding `none` models only the `chunks(0)`
panic, which cannot occur for this program's `n_y = 693`), and even before
any read or update has occurred a freshly constructed reconstructor emits
the zero-initialized command vector of length `n_y + 7`. -/
theorem reconstructor_write_primed :
    (∀ r : Reconstructor, 0 < r.n_y / 7 → ∃ out, writeM2modesRec r = some out) ∧
    (∀ mats r, Reconstructor.new mats = some r → 7 ∣ r.n_y → 0 < r.n_y →
      writeM2modesRec r = some (zeros (r.n_y + 7))) := by
  constructor
  · intro r h
    unfold writeM2modesRec
    rw [if_neg (by omega)]
    exact ⟨_, rfl⟩
  · intro mats r hnew h7 hpos
    obtain ⟨k, hk⟩ := h7
    have hkpos : 0 < k := by omega
    have hy : r.y = zeros r.n_y := by
      cases mats with
      | nil => simp [Reconstructor.new] at hnew
      | cons m0 rest =>
        simp only [Reconstructor.new] at hnew
        split at hnew
        · cases Option.some.inj hnew; rfl
        · simp at hnew
    have hw := write_eq_specReshape r k hkpos hk (by rw [hy]; simp [zeros])
    rw [hw, hy, hk, specReshape_zeros]

/-- C10 witness: a fresh reconstructor over a 7×0 operator emits the zero
vector of length 14. -/
theorem reconstructor_write_primed_witness :
    Reconstructor.new [⟨7, 0, [[], [], [], [], [], [], []]⟩] =
      some ⟨[⟨7, 0, [[], [], [], [], [], [], []]⟩], [], zeros 7, 7⟩ ∧
    writeM2modesRec ⟨[⟨7, 0, [[], [], [], [], [], [], []]⟩], [], zeros 7, 7⟩ =
      some (zeros (7 + 7)) := by
  refine ⟨by decide, ?_⟩
  exact (reconstructor_write_primed).2 [⟨7, 0, [[], [], [], [], [], [], []]⟩]
    ⟨[⟨7, 0, [[], [], [], [], [], [], []]⟩], [], zeros 7, 7⟩
    (by decide) (by decide) (by decide)

lemma addVecQ_scaleVecQ_getD (a d : List ℚ) (g : ℚ) :
    ∀ j, j < a.length → j < d.length →
    (addVecQ a (scaleVecQ g d)).getD j 0 = a.getD j 0 + g * d.getD j 0 := by
  induction a generalizing d with
  | nil => intro j hj _; simp at hj
  | cons x xs ih =>
    intro j hja hjd
    cases d with
    | nil => simp at hjd
    | cons w ws =>
      cases j with
      | zero => simp [addVecQ, scaleVecQ]
      | succ m =>
        simp only [addVecQ, scaleVecQ, List.map_cons, List.zipWith_cons_cons,
          List.getD_cons_succ]
        simp only [List.length_cons, Nat.succ_lt_succ_iff] at hja hjd
        exact ih ws m hja hjd

/-- C3: the integrator configured by this program has gain `g = 0.5`; on
every update the accumulated command becomes `y + g·Δ` (pointwise, with the
gain left unchanged); and because its output is bootstrapped its first
write emits the zero vector of size `n_mode` before any increment has been
read. -/
theorem integrator_control_law :
    glaoIntegrator.gain = 1 / 2 ∧
    glaoIntegrator.write = zerosQ n_mode ∧
    (∀ (i : Integrator) (delta : List ℚ),
      (i.update delta).gain = i.gain ∧
      ∀ j, j < i.y.length → j < delta.length →
        (i.update delta).y.getD j 0 = i.y.getD j 0 + i.gain * delta.getD j 0) := by
  refine ⟨rfl, rfl, ?_⟩
  intro i delta
  exact ⟨rfl, addVecQ_scaleVecQ_getD i.y delta i.gain⟩

/-- C3 witness: one update step on a one-element state. -/
theorem integrator_control_law_witness :
    ((Integrator.mk [0] (1 / 2)).update [2]).gain = (Integrator.mk [0] (1 / 2)).gain ∧
    ((Integrator.mk [0] (1 / 2)).update [2]).y.getD 0 0 =
      (Integrator.mk [0] (1 / 2)).y.getD 0 0 +
        (Integrator.mk [0] (1 / 2)).gain * ([(2 : ℚ)].getD 0 0) := by
  refine ⟨((integrator_control_law).2.2 (Integrator.mk [0] (1 / 2)) [2]).1, ?_⟩
  exact ((integrator_control_law).2.2 (Integrator.mk [0] (1 / 2)) [2]).2 0
    (by decide) (by decide)

lemma sorted_ge_head_le (a : ℚ) (l : List ℚ)
    (hs : List.Sorted (· ≥ ·) (a :: l)) : ∀ x ∈ a :: l, x ≤ a := by
  intro x hx
  rcases List.mem_cons.mp hx with h | h
  · exact le_of_eq h
  · exact (List.pairwise_cons.mp hs).1 x h

lemma sorted_ge_getLastD_le (a : ℚ) (l : List ℚ)
    (hs : List.Sorted (· ≥ ·) (a :: l)) :
    ∀ x ∈ a :: l, (a :: l).getLastD 0 ≤ x := by
  induction l generalizing a with
  | nil =>
    intro x hx
    simp at hx
    subst hx
    simp [List.getLastD]
  | cons b t ih =>
    intro x hx
    have hpc := List.pairwise_cons.mp hs
    have hba : b ≤ a := hpc.1 b (by simp)
    have hL : (a :: b :: t).getLastD 0 = (b :: t).getLastD 0 := by
      simp [List.getLastD_cons]
    rw [hL]
    rcases List.mem_cons.mp hx with h | h
    · subst h
      exact le_trans (ih b hpc.2 b (by simp)) hba
    · exact ih b hpc.2 x h

/-- C7: the logged conditioning value is the first singular value divided by
the last one; when the singular-value list is ordered descending — the
ordering premise recorded in the claim — the first entry bounds every
entry from above and the last bounds every entry from below, so the value
is the ratio of the largest to the smallest singular value. -/
theorem condn_max_min_ratio (svals : List ℚ) (hne : svals ≠ [])
    (hsort : List.Sorted (· ≥ ·) svals) :
    condn svals = svals.headD 0 / svals.getLastD 0 ∧
    (∀ x ∈ svals, x ≤ svals.headD 0) ∧
    (∀ x ∈ svals, svals.getLastD 0 ≤ x) := by
  cases svals with
  | nil => exact absurd rfl hne
  | cons a l =>
    exact ⟨rfl, sorted_ge_head_le a l hsort, sorted_ge_getLastD_le a l hsort⟩

/-- C7 witness: a concrete descending singular-value list. -/
theorem condn_max_min_ratio_witness :
    ([(4 : ℚ), 2, 1] ≠ []) ∧
    condn [4, 2, 1] = ([(4 : ℚ), 2, 1]).headD 0 / ([(4 : ℚ), 2, 1]).getLastD 0 := by
  refine ⟨by decide, ?_⟩
  exact (condn_max_min_ratio [4, 2, 1] (by decide) (by decide)).1

lemma glaoEdgeNB_rank : ∀ a b : GActor, glaoEdgeNB a b = true →
    glaoRank a < glaoRank b := by decide

lemma chainNB_rank : ∀ (l : List GActor) (a c : GActor),
    chainOf glaoEdgeNB a (l ++ [c]) = true → glaoRank a < glaoRank c := by
  intro l
  induction l with
  | nil =>
    intro a c h
    simp [chainOf] at h
    exact glaoEdgeNB_rank a c h
  | cons b t ih =>
    intro a c h
    simp only [List.cons_append, chainOf, Bool.and_eq_true] at h
    exact lt_trans (glaoEdgeNB_rank a b h.1) (ih b c h.2)

lemma chain_to_chainNB : ∀ (l : List GActor) (a c : GActor),
    chainOf glaoEdge a (l ++ [c]) = true →
    (a :: l).all (fun x => !glaoBootstrap x) = true →
    chainOf glaoEdgeNB a (l ++ [c]) = true := by
  intro l
  induction l with
  | nil =>
    intro a c h hb
    simp only [List.nil_append, chainOf, Bool.and_eq_true] at h ⊢
    simp only [List.all_cons, List.all_nil, Bool.and_true,
      Bool.not_eq_true'] at hb
    exact ⟨by simp [glaoEdgeNB, h.1, hb], h.2⟩
  | cons b t ih =>
    intro a c h hb
    simp only [List.cons_append, chainOf, Bool.and_eq_true] at h ⊢
    simp only [List.all_cons, Bool.and_eq_true, Bool.not_eq_true'] at hb
    refine ⟨by simp [glaoEdgeNB, h.1, hb.1], ?_⟩
    have hb2 : (b :: t).all (fun x => !glaoBootstrap x) = true := by
      simp only [List.all_cons, Bool.and_eq_true, Bool.not_eq_true']
      exact hb.2
    exact ih b c h.2 hb2

/-- C5: in the `glao` model every feedback cycle contains a bootstrapped
actor (the condition the spec-modelled `check()` verifies before any tick
runs, so the run starts); the adaptive-optics → reconstructor → integrator
→ adaptive-optics cycle is a cycle of the wiring; and the only actor of the
model with a bootstrapped output — in that cycle and in the whole graph —
is the integrator, via the bootstrap on its `M2modes` output. -/
theorem glao_cycle_bootstrap :
    checkBootstrapOK glaoEdge glaoBootstrap ∧
    chainOf glaoEdge GActor.aoActor
      [GActor.reconActor, GActor.integActor, GActor.aoActor] = true ∧
    ([GActor.aoActor, GActor.reconActor, GActor.integActor].filter
      (fun x => glaoBootstrap x)) = [GActor.integActor] ∧
    (∀ x : GActor, glaoBootstrap x = true ↔ x = GActor.integActor) := by
  refine ⟨?_, by decide, by decide, by decide⟩
  unfold checkBootstrapOK
  intro a l hchain
  by_contra hno
  have hall : (a :: l).all (fun x => !glaoBootstrap x) = true := by
    simp only [List.any_eq_true, not_exists] at hno
    simp only [List.all_eq_true, Bool.not_eq_true']
    intro x hx
    by_contra hxb
    exact hno x ⟨hx, by simpa using hxb⟩
  exact lt_irrefl _ (chainNB_rank l a a (chain_to_chainNB l a a hchain hall))

/-- C5 witness: the feedback cycle of the model, checked to contain a
bootstrapped actor by the theorem itself. -/
theorem glao_cycle_bootstrap_witness :
    chainOf glaoEdge GActor.aoActor
      ([GActor.reconActor, GActor.integActor] ++ [GActor.aoActor]) = true ∧
    ([GActor.aoActor, GActor.reconActor, GActor.integActor].any
      glaoBootstrap = true) := by
  refine ⟨by decide, ?_⟩
  exact (glao_cycle_bootstrap).1 GActor.aoActor
    [GActor.reconActor, GActor.integActor] (by decide)

lemma from_column_slice_as_slice (M : DMat) (h : M.Wf) :
    from_column_slice M.nrows M.ncols M.as_slice = M := by
  obtain ⟨n, c, rows⟩ := M
  obtain ⟨h1, h2⟩ := h
  simp only at h1 h2
  unfold from_column_slice
  simp only [DMat.mk.injEq, true_and]
  apply List.ext_getElem
  · simpa using h1.symm
  · intro i hi1 hi2
    have hi : i < n := by simpa using hi1
    simp only [List.getElem_map, List.getElem_range]
    apply List.ext_getElem
    · simpa using (h2 _ (List.getElem_mem hi2)).symm
    · intro j hj1 hj2
      have hj : j < c := by simpa using hj1
      simp only [List.getElem_map, List.getElem_range]
      have hk : j * n + i < n * c := by
        calc j * n + i < j * n + n := by omega
        _ = (j + 1) * n := by ring
        _ ≤ c * n := Nat.mul_le_mul_right n (by omega)
        _ = n * c := Nat.mul_comm c n
      show (DMat.as_slice ⟨n, c, rows⟩).getD (j * n + i) 0 = _
      unfold DMat.as_slice
      rw [List.getD_eq_getElem _ _ (by simpa using hk)]
      simp only [List.getElem_map, List.getElem_range]
      have hmod : (j * n + i) % n = i := by
        rw [Nat.add_comm, Nat.add_mul_mod_self_right]
        exact Nat.mod_eq_of_lt hi
      have hdiv : (j * n + i) / n = j := by
        rw [Nat.add_comm, Nat.add_mul_div_right _ _ (show 0 < n by omega)]
        rw [Nat.div_eq_of_lt hi]
        omega
      rw [hmod, hdiv]
      unfold DMat.entry
      simp only
      rw [List.getD_eq_getElem rows [] hi2,
        List.getD_eq_getElem _ _ hj2]

lemma deserialize_serialize (mats : List DMat) (h : ∀ M ∈ mats, M.Wf) :
    deserializePinv (serializePinv mats) = mats := by
  unfold serializePinv deserializePinv
  rw [List.map_map]
  conv_rhs => rw [← List.map_id mats]
  apply List.map_congr_left
  intro M hM
  exact from_column_slice_as_slice M (h M hM)

/-- C6: the reconstruction operator is obtained through a read-through cache
keyed by mode count, lenslet geometry, and sub-unit count — with this
program's parameters the key is `pinv_poke_100mode_48lensletX3.bin`.  If the
store holds the file, the per-sensor matrices are deserialized from it and
nothing is recomputed or written; otherwise the computed matrices (the
SVD/pseudo-inverse step abstracted as `computed`) are returned and
serialized into that same file, leaving every other file untouched;
serialization round-trips on shape-consistent matrices, and the resulting
matrices are exactly the ones handed to `Reconstructor::new`. -/
theorem pinv_poke_mat_cache (fs : FS) (computed : List DMat)
    (hwf : ∀ M ∈ computed, M.Wf) :
    glaoCacheKey = "pinv_poke_100mode_48lensletX3.bin" ∧
    (∀ d, fs glaoCacheKey = some d →
      pinv_poke_mat fs computed = (deserializePinv d, fs)) ∧
    (fs glaoCacheKey = none →
      (pinv_poke_mat fs computed).1 = computed ∧
      (pinv_poke_mat fs computed).2 glaoCacheKey = some (serializePinv computed) ∧
      ∀ key, key ≠ glaoCacheKey → (pinv_poke_mat fs computed).2 key = fs key) ∧
    deserializePinv (serializePinv computed) = computed ∧
    glaoReconstructor fs computed =
      Reconstructor.new (pinv_poke_mat fs computed).1 := by
  refine ⟨by decide, ?_, ?_, deserialize_serialize computed hwf, rfl⟩
  · intro d hd
    unfold pinv_poke_mat
    rw [hd]
  · intro hnone
    unfold pinv_poke_mat
    rw [hnone]
    refine ⟨rfl, by simp, ?_⟩
    intro key hk
    simp [hk]

/-- C6 witness: an empty store — the matrices are computed, returned, and
serialized under the program's cache key; reloading them round-trips. -/
theorem pinv_poke_mat_cache_witness :
    (pinv_poke_mat (fun _ => none) [mat12]).1 = [mat12] ∧
    (pinv_poke_mat (fun _ => none) [mat12]).2 glaoCacheKey =
      some (serializePinv [mat12]) ∧
    deserializePinv (serializePinv [mat12]) = [mat12] := by
  have h := pinv_poke_mat_cache (fun _ => none) [mat12] (by decide)
  exact ⟨(h.2.2.1 rfl).1, (h.2.2.1 rfl).2.1, h.2.2.2.1⟩
